import Mathlib

/-!
Verification development for the circuit-topology subsystem of
hardware-ai-orchestrator-simplified: a shallow embedding of
`src/vision/topology/connection_detector.py` and
`src/vision/topology/netlist_generator.py`, together with theorems about the
embedded operations.

Modelling conventions:
* Python strings are Lean `String`s; `str.replace`, substring `in`, and
  `str.lower()` are embedded below (`pyReplace`, `pyContains`, `pyLower`).
* Pixel coordinates are integers (`ℤ`).  The source compares Euclidean
  distances computed with `np.sqrt` against integer thresholds
  (`sqrt d < 25`, `sqrt d < 10`, `length > 30`); these comparisons are
  embedded as the exactly equivalent integer comparisons on squared
  distances (`d < 625`, `d < 100`, `d² > 900`), which agree with the
  floating-point originals because the thresholds and their squares are
  exactly representable and `sqrt` is monotone and correctly rounded.
* Quantities produced by floating-point image analysis that no integer
  expression determines (a segment's measured angle, thickness and
  continuity) enter the model as rational-valued attributes of the segment.
* Python `float` arithmetic on the small decimal literals of this code base
  (0.7, 0.2, 0.1, 0.8) is modelled exactly over `ℚ`.
-/

namespace HardwareAI

/-- One step of Python `str.replace(old, new)` with explicit fuel (the fuel is
set to the string length, which each step strictly consumes; `old` is never
empty anywhere in this code base, and for safety an empty `old` leaves the
string unchanged). Replaces non-overlapping occurrences left to right. -/
def replaceAux (old new : List Char) : ℕ → List Char → List Char
  | 0, s => s
  | fuel + 1, s =>
    if old ≠ [] ∧ old.isPrefixOf s then
      new ++ replaceAux old new fuel (s.drop old.length)
    else
      match s with
      | [] => []
      | c :: rest => c :: replaceAux old new fuel rest

/-- Python `s.replace(old, new)`. -/
def pyReplace (s old new : String) : String :=
  ⟨replaceAux old.data new.data s.data.length s.data⟩

/-- Python substring test `sub in s`. -/
def pyContains (s sub : String) : Bool :=
  s.data.tails.any (fun t => sub.data.isPrefixOf t)

/-- Python `str.lower()` on one character, for the character set appearing in
this subsystem: ASCII letters are lowered, the Greek capital omega used as an
ohm sign lowers to small omega, everything else (digits, `μ`, symbols) is
unchanged. -/
def pyLowerChar (c : Char) : Char :=
  if c = 'Ω' then 'ω' else c.toLower

/-- Python `s.lower()`. -/
def pyLower (s : String) : String :=
  ⟨s.data.map pyLowerChar⟩

/-- `NetlistGenerator._parse_resistance_value`
(netlist_generator.py lines 227-243). -/
def parseResistanceValue (value : String) : String :=
  if value = "" then "1k"
  else
    let v := pyLower (pyReplace (pyReplace (pyReplace value "Ω" "") "ohm" "") " " "")
    if pyContains v "k" then v
    else if pyContains v "m" && !pyContains v "meg" then pyReplace v "m" "meg"
    else if pyContains v "g" then pyReplace v "g" "g"
    else if v ≠ "" then v else "1k"

/-- `NetlistGenerator._parse_capacitance_value`
(netlist_generator.py lines 245-264); the multiplier map is applied in the
source's insertion order μ, u, n, p, f. -/
def parseCapacitanceValue (value : String) : String :=
  if value = "" then "1n"
  else
    let v0 := pyLower (pyReplace (pyReplace value "F" "") " " "")
    let v1 := pyReplace v0 "μ" "u"
    let v2 := pyReplace v1 "u" "u"
    let v3 := pyReplace v2 "n" "n"
    let v4 := pyReplace v3 "p" "p"
    let v5 := pyReplace v4 "f" "f"
    if v5 ≠ "" then v5 else "1n"

/-- `NetlistGenerator._parse_inductance_value`
(netlist_generator.py lines 266-284). -/
def parseInductanceValue (value : String) : String :=
  if value = "" then "1u"
  else
    let v0 := pyLower (pyReplace (pyReplace value "H" "") " " "")
    let v1 := pyReplace v0 "μ" "u"
    let v2 := pyReplace v1 "u" "u"
    let v3 := pyReplace v2 "m" "m"
    let v4 := pyReplace v3 "n" "n"
    if v4 ≠ "" then v4 else "1u"

/-- `NetlistGenerator._parse_voltage_value`
(netlist_generator.py lines 286-300). -/
def parseVoltageValue (value : String) : String :=
  if value = "" then "5"
  else
    let v := pyLower (pyReplace (pyReplace value "V" "") " " "")
    if pyContains v "k" then v
    else if pyContains v "m" then pyReplace v "m" "m"
    else if v ≠ "" then v else "5"

/-- A minimal universe of Python runtime values, rich enough to express both
well-formed and malformed inputs of `NetlistGenerator.generate_spice_netlist`
(component entries are arbitrary values; dictionaries are association lists). -/
inductive PyVal where
  | str : String → PyVal
  | int : ℤ → PyVal
  | dict : List (String × PyVal) → PyVal
  | list : List PyVal → PyVal
  | none : PyVal

/-- Python `d.get(k)` on a dictionary: the value stored under `k`, if any. -/
def pyGet (d : List (String × PyVal)) (k : String) : Option PyVal :=
  (d.find? (fun kv => kv.1 == k)).map (fun kv => kv.2)

/-- Python `str(v)` as used inside the generator's f-strings.  Strings render
as themselves and integers in decimal, exactly as Python; the rendering of
nested containers and `None` is abbreviated here (no theorem below evaluates
it, and no input considered by any claim contains such a value in a rendered
position). -/
def pyStr : PyVal → String
  | .str s => s
  | .int n => toString n
  | .none => "None"
  | .dict _ => "\x7b...\x7d"
  | .list _ => "[...]"

/-- The Python type name of a value, as it appears in a `TypeError` message. -/
def pyTypeName : PyVal → String
  | .str _ => "str"
  | .int _ => "int"
  | .dict _ => "dict"
  | .list _ => "list"
  | .none => "NoneType"

/-- Python iteration `for x in v`: lists yield their elements, strings their
one-character substrings, dictionaries their keys; `int` and `None` are not
iterable (`TypeError`). -/
def pyIter : PyVal → Option (List PyVal)
  | .list l => some l
  | .str s => some (s.data.map (fun c => .str (String.singleton c)))
  | .dict d => some (d.map (fun kv => .str kv.1))
  | _ => Option.none

/-- One entry of the `spice_components` list that
`NetlistGenerator.generate_spice_netlist` accumulates (a Python dict with keys
designation/type/value/spice_line; designation and value are stored as the raw
values taken from the component dict). -/
structure SpiceDevice where
  designation : PyVal
  type : String
  value : PyVal
  spice_line : String

/-- The `metadata` sub-dictionary of the generator's result. -/
structure NetlistMetadata where
  generation_success : Bool
  total_components : Option ℕ
  error : Option String

/-- The result dictionary of `NetlistGenerator.generate_spice_netlist`. -/
structure NetlistResult where
  netlist : String
  components : List SpiceDevice
  node_mapping : List (String × ℤ)
  analysis_commands : List String
  metadata : NetlistMetadata

/-- Python `sep.join(lines)`. -/
def pyJoin (sep : String) : List String → String
  | [] => ""
  | [x] => x
  | x :: y :: rest => x ++ sep ++ pyJoin sep (y :: rest)

/-- The body of the per-component loop of `generate_spice_netlist`
(netlist_generator.py lines 40-66), acting on the pair
(netlist_lines, spice_components).  `comp.get` on a non-dict raises
`AttributeError` and `component_type.lower()` on a non-string raises as well;
both are caught by the inner `try`/`except`, which skips the component. -/
def processComponent (st : List String × List SpiceDevice) (comp : PyVal) :
    List String × List SpiceDevice :=
  match comp with
  | .dict d =>
    let designation :=
      (pyGet d "designation").getD (.str ("COMP" ++ toString (st.2.length + 1)))
    match (pyGet d "component_type").getD (.str "unknown") with
    | .str component_type =>
      let value := (pyGet d "value").getD (.str "1")
      let lowered := pyLower component_type
      let spice_line :=
        if lowered = "resistor" then
          "R" ++ pyStr designation ++ " N1 N2 " ++ pyStr value
        else if lowered = "capacitor" then
          "C" ++ pyStr designation ++ " N1 N2 " ++ pyStr value
        else if lowered = "inductor" then
          "L" ++ pyStr designation ++ " N1 N2 " ++ pyStr value
        else
          "X" ++ pyStr designation ++ " N1 N2 " ++ component_type
      (st.1 ++ [spice_line],
       st.2 ++ [⟨designation, component_type, value, spice_line⟩])
    | _ => st
  | _ => st

/-- `NetlistGenerator.generate_spice_netlist` (netlist_generator.py lines
27-97).  The `connections` and `nodes` arguments are accepted and never read,
exactly as in the source.  A `components` argument Python cannot iterate
(`int`, `None`) raises `TypeError` inside the outer `try`; the `except` branch
returns the failure result with an empty netlist string and a captured error
description. -/
def generateSpiceNetlist (components connections nodes : PyVal) : NetlistResult :=
  match pyIter components with
  | Option.none =>
    { netlist := ""
      components := []
      node_mapping := []
      analysis_commands := []
      metadata :=
        { generation_success := false
          total_components := Option.none
          error := some (pyTypeName components ++ " object is not iterable") } }
  | some comps =>
    let st := comps.foldl processComponent
      (["* Generated SPICE Netlist", "* Hardware AI Orchestrator", ""], [])
    { netlist := pyJoin "\n" (st.1 ++ ["", ".op", ".end"])
      components := st.2
      node_mapping := []
      analysis_commands := [".op"]
      metadata :=
        { generation_success := true
          total_components := some st.2.length
          error := Option.none } }

/-- The `SPICEComponent` dataclass (netlist_generator.py lines 11-19). -/
structure SPICEComponent where
  name : String
  component_type : String
  nodes : List String
  value : Option String := Option.none
  model : Option String := Option.none
  deriving DecidableEq

/-- `NetlistGenerator._generate_analysis_commands`
(netlist_generator.py lines 379-401). -/
def generateAnalysisCommands (spice_components : List SPICEComponent) : List String :=
  let commands := [".op"]
  let voltage_sources := spice_components.filter (fun c => c.component_type == "V")
  let commands :=
    if voltage_sources = [] then commands else commands ++ [".dc V1 0 10 0.1"]
  let reactive := spice_components.filter
    (fun c => c.component_type == "C" || c.component_type == "L")
  let commands :=
    if reactive = [] then commands else commands ++ [".ac dec 10 1 1meg"]
  commands ++ [".tran 1n 1u"]

/-- Modelled from the spec (§4.7, §7): the "minimal header + `.op` + `.end`
skeleton" that the spec says a failed generation returns — the same text the
success path produces for an empty component list.  Used only to compare the
spec's claimed failure shape with the code's actual failure result. -/
def specMinimalSkeleton : String :=
  "* Generated SPICE Netlist\n* Hardware AI Orchestrator\n\n\n.op\n.end"

/-- Python `int(x)` on a real value: truncation toward zero. -/
def ratTrunc (q : ℚ) : ℤ :=
  if 0 ≤ q then ⌊q⌋ else -⌊-q⌋

/-- One pin record produced by
`AdvancedConnectionDetector._extract_component_pins`
(connection_detector.py lines 291-312). -/
structure Pin where
  pin_id : String
  component_id : String
  position : ℤ × ℤ
  pin_number : ℕ
  component_type : String
  deriving DecidableEq

/-- The `Connection` dataclass (connection_detector.py lines 12-20). -/
structure Connection where
  start_point : ℤ × ℤ
  end_point : ℤ × ℤ
  path : List (ℤ × ℤ)
  connection_type : String
  confidence : ℚ
  connected_components : List String
  deriving DecidableEq

/-- The `Node` dataclass (connection_detector.py lines 22-28). -/
structure Node where
  position : ℤ × ℤ
  node_id : String
  connected_components : List String
  connection_count : ℕ
  deriving DecidableEq

/-- A detected component record as the detector-side functions consume it
(`component['id']`, `component['bbox']`, `component['component_type']`);
bounding-box coordinates are rationals because the upstream detector
produces floats. -/
structure DetectedComponent where
  id : String
  bbox : ℚ × ℚ × ℚ × ℚ
  component_type : String
  deriving DecidableEq

/-- One merged line segment together with the measured quantities
`_classify_line_segments` computes for it (connection_detector.py lines
173-180): endpoints are integer pixels; `angle` (degrees, from
`np.arctan2`), `thickness` and `continuity` are results of floating-point
image analysis and enter the model as rational-valued attributes of the
segment.  The comparison `length > 30` on `length = sqrt((x2-x1)² + (y2-y1)²)`
is embedded as the equivalent comparison `(x2-x1)² + (y2-y1)² > 900`. -/
structure MeasuredSegment where
  x1 : ℤ
  y1 : ℤ
  x2 : ℤ
  y2 : ℤ
  angle : ℚ
  thickness : ℚ
  continuity : ℚ
  deriving DecidableEq

/-- One classified-connection dictionary produced by
`_classify_line_segments` (connection_detector.py lines 199-211); the
`properties` sub-dictionary of diagnostic floats is not read by any later
stage and is not modelled. -/
structure ClassifiedConn where
  id : String
  start_point : ℤ × ℤ
  end_point : ℤ × ℤ
  connection_type : String
  confidence : ℚ
  deriving DecidableEq

/-- Squared Euclidean length of a measured segment. -/
def segLengthSq (s : MeasuredSegment) : ℤ :=
  (s.x2 - s.x1) ^ 2 + (s.y2 - s.y1) ^ 2

/-- Python `min(a, b)` on two numbers: the second argument is taken exactly
when it is strictly smaller. -/
def pyMin (a b : ℚ) : ℚ :=
  if b < a then b else a

/-- The classification of one segment, with `i` its position in the input
list (`_classify_line_segments` loop body, connection_detector.py lines
173-211): base confidence 0.7, +0.2 when the angle is within 15° of 0°,
90° or 180°, +0.1 when the length exceeds 30px, +0.1 when thickness ≤ 3
and continuity > 0.8, clamped by `min(confidence, 1.0)`; the connection
type is always left at the default `wire` (the only reassignment in the
source writes the same value). -/
def classifySegment (i : ℕ) (s : MeasuredSegment) : ClassifiedConn :=
  let c0 : ℚ := 7/10
  let c1 := if |s.angle| < 15 ∨ |s.angle - 90| < 15 ∨ |s.angle - 180| < 15
    then c0 + 2/10 else c0
  let c2 := if segLengthSq s > 900 then c1 + 1/10 else c1
  let c3 := if s.thickness ≤ 3 ∧ s.continuity > 8/10 then c2 + 1/10 else c2
  { id := "conn_" ++ toString i
    start_point := (s.x1, s.y1)
    end_point := (s.x2, s.y2)
    connection_type := "wire"
    confidence := pyMin c3 1 }

/-- `AdvancedConnectionDetector._classify_line_segments`
(connection_detector.py lines 169-213). -/
def classifyLineSegments (line_segments : List MeasuredSegment) : List ClassifiedConn :=
  line_segments.enum.map (fun p => classifySegment p.1 p.2)

/-- `AdvancedConnectionDetector._get_component_pin_locations`
(connection_detector.py lines 314-374). -/
def getComponentPinLocations (bbox : ℚ × ℚ × ℚ × ℚ) (comp_type : String) :
    List (ℤ × ℤ) :=
  let x1 := bbox.1
  let y1 := bbox.2.1
  let x2 := bbox.2.2.1
  let y2 := bbox.2.2.2
  let center_x := (x1 + x2) / 2
  let center_y := (y1 + y2) / 2
  if comp_type = "resistor" ∨ comp_type = "inductor" then
    [(ratTrunc x1, ratTrunc center_y), (ratTrunc x2, ratTrunc center_y)]
  else if comp_type = "capacitor" then
    [(ratTrunc x1, ratTrunc center_y), (ratTrunc x2, ratTrunc center_y)]
  else if comp_type = "transistor" ∨ comp_type = "op_amp" ∨ comp_type = "ic" then
    let width := x2 - x1
    let height := y2 - y1
    if width > height then
      let num_pins := max 2 (ratTrunc (width / 20))
      ((List.range num_pins.toNat).map (fun i =>
        let pin_x := x1 + ((i : ℚ) + 1) * width / ((num_pins : ℚ) + 1)
        [(ratTrunc pin_x, ratTrunc y1), (ratTrunc pin_x, ratTrunc y2)])).flatten
    else
      let num_pins := max 2 (ratTrunc (height / 20))
      ((List.range num_pins.toNat).map (fun i =>
        let pin_y := y1 + ((i : ℚ) + 1) * height / ((num_pins : ℚ) + 1)
        [(ratTrunc x1, ratTrunc pin_y), (ratTrunc x2, ratTrunc pin_y)])).flatten
  else if comp_type = "voltage_source" then
    [(ratTrunc center_x, ratTrunc y1), (ratTrunc center_x, ratTrunc y2)]
  else if comp_type = "ground" then
    [(ratTrunc center_x, ratTrunc y1)]
  else
    [(ratTrunc x1, ratTrunc center_y), (ratTrunc x2, ratTrunc center_y)]

/-- `AdvancedConnectionDetector._extract_component_pins`
(connection_detector.py lines 291-312). -/
def extractComponentPins (detected_components : List DetectedComponent) : List Pin :=
  detected_components.foldl (fun acc component =>
    let pins := getComponentPinLocations component.bbox component.component_type
    acc ++ pins.enum.map (fun p =>
      { pin_id := component.id ++ "_pin_" ++ toString p.1
        component_id := component.id
        position := p.2
        pin_number := p.1 + 1
        component_type := component.component_type })) []

/-- The pins within the 25px proximity threshold of either endpoint of a
segment (`_build_connection_network` inner loop, connection_detector.py
lines 390-399): `sqrt d < 25` is embedded as `d < 625`. -/
def nearbyPins (start_point end_point : ℤ × ℤ) (component_pins : List Pin) :
    List Pin :=
  component_pins.filter (fun pin =>
    decide ((start_point.1 - pin.position.1) ^ 2
              + (start_point.2 - pin.position.2) ^ 2 < 625) ||
    decide ((end_point.1 - pin.position.1) ^ 2
              + (end_point.2 - pin.position.2) ^ 2 < 625))

/-- The per-segment body of `_build_connection_network`
(connection_detector.py lines 383-412): collect the owning components of the
nearby pins, deduplicate (Python's `list(set(...))` returns them in
unspecified order; embedded as `List.dedup` — every claim about the result
reads it as a set), and keep the segment only when at least one component is
near. -/
def networkStep (component_pins : List Pin) (acc : List Connection)
    (conn : ClassifiedConn) : List Connection :=
  let connected_components :=
    ((nearbyPins conn.start_point conn.end_point component_pins).map
      Pin.component_id).dedup
  if connected_components.length ≥ 1 then
    acc ++ [{ start_point := conn.start_point
              end_point := conn.end_point
              path := [conn.start_point, conn.end_point]
              connection_type := conn.connection_type
              confidence := conn.confidence
              connected_components := connected_components }]
  else acc

/-- `AdvancedConnectionDetector._build_connection_network`
(connection_detector.py lines 376-414). -/
def buildConnectionNetwork (electrical_connections : List ClassifiedConn)
    (component_pins : List Pin) : List Connection :=
  electrical_connections.foldl (networkStep component_pins) []

/-- The Python dict comprehension
`{comp['id']: idx for idx, comp in enumerate(components)}` as a lookup:
a later duplicate id overwrites an earlier one. -/
def compIdToIdx (components : List DetectedComponent) (cid : String) : Option ℕ :=
  components.enum.foldl
    (fun acc p => if p.2.id = cid then some p.1 else acc) Option.none

/-- Writing `matrix[i][j] = 1; matrix[j][i] = 1` on the function model of the
n×n nested list built by `_build_connectivity_matrix`. -/
def matUpdate (M : ℕ → ℕ → ℕ) (i j : ℕ) : ℕ → ℕ → ℕ :=
  fun a b => if (a = i ∧ b = j) ∨ (a = j ∧ b = i) then 1 else M a b

/-- The innermost step of `_build_connectivity_matrix` (connection_detector.py
lines 515-521): mark a component pair when both ids are known. -/
def markPair (toIdx : String → Option ℕ) (c1 c2 : String) (M : ℕ → ℕ → ℕ) :
    ℕ → ℕ → ℕ :=
  match toIdx c1, toIdx c2 with
  | some i, some j => matUpdate M i j
  | _, _ => M

/-- The positional pair loop `for i, c1 in enumerate(cc): for c2 in cc[i+1:]`
of `_build_connectivity_matrix`. -/
def markPairs (toIdx : String → Option ℕ) : List String → (ℕ → ℕ → ℕ) → ℕ → ℕ → ℕ
  | [], M => M
  | c1 :: rest, M =>
    markPairs toIdx rest (rest.foldl (fun M' c2 => markPair toIdx c1 c2 M') M)

/-- `AdvancedConnectionDetector._build_connectivity_matrix`
(connection_detector.py lines 501-523), with the n×n list of lists embedded
as a function (all source writes stay inside the n×n range). -/
def buildConnectivityMatrix (connections : List Connection)
    (components : List DetectedComponent) : ℕ → ℕ → ℕ :=
  connections.foldl
    (fun M conn => markPairs (compIdToIdx components) conn.connected_components M)
    (fun _ _ => 0)

/-- Python `sum(row)` for row `i` of the n×n matrix. -/
def rowSum (M : ℕ → ℕ → ℕ) (n i : ℕ) : ℕ :=
  ((List.range n).map (M i)).sum

/-- `AdvancedConnectionDetector._find_isolated_components`
(connection_detector.py lines 556-565). -/
def findIsolatedComponents (M : ℕ → ℕ → ℕ)
    (components : List DetectedComponent) : List String :=
  (components.enum.filter
    (fun p => rowSum M components.length p.1 == 0)).map (fun p => p.2.id)

/-- One potential-issue dictionary (`type`, `severity`, `message`). -/
structure Issue where
  type : String
  severity : String
  message : String
  deriving DecidableEq

/-- `AdvancedConnectionDetector._identify_potential_issues`
(connection_detector.py lines 585-625); `sqrt d < 10` is embedded as
`d < 100`. -/
def identifyPotentialIssues (connections : List Connection) (nodes : List Node)
    (components : List DetectedComponent) : List Issue :=
  let M := buildConnectivityMatrix connections components
  let isolated_components := findIsolatedComponents M components
  let issues₁ : List Issue :=
    if isolated_components = [] then [] else
      [⟨"isolation", "warning",
        "Found " ++ toString isolated_components.length
          ++ " isolated components: "
          ++ String.intercalate ", " isolated_components⟩]
  let high_degree_nodes := nodes.filter (fun node => node.connection_count > 4)
  let issues₂ : List Issue :=
    if high_degree_nodes = [] then [] else
      [⟨"high_connectivity", "info",
        "Found " ++ toString high_degree_nodes.length
          ++ " nodes with high connectivity (>4 connections)"⟩]
  let short_connections := connections.filter (fun conn =>
    decide ((conn.end_point.1 - conn.start_point.1) ^ 2
              + (conn.end_point.2 - conn.start_point.2) ^ 2 < 100))
  let issues₃ : List Issue :=
    if short_connections = [] then [] else
      [⟨"short_connections", "info",
        "Found " ++ toString short_connections.length
          ++ " very short connections (possible noise)"⟩]
  issues₁ ++ issues₂ ++ issues₃

/-- The evolving state of `_find_connected_pins` (connection_detector.py
lines 459-484): the `connected_pins` accumulator, the set of processed pin
ids, and the BFS queue.  The Python code appends every newly found pin to
all three simultaneously. -/
structure BfsState where
  acc : List Pin
  processed : List String
  queue : List Pin
  deriving DecidableEq

/-- Append one newly found pin to accumulator, processed set and queue. -/
def addPin (p : Pin) (s : BfsState) : BfsState :=
  ⟨s.acc ++ [p], s.processed ++ [p.pin_id], s.queue ++ [p]⟩

/-- The innermost loop of `_find_connected_pins`: add every not-yet-processed
pin of component `compId`. -/
def visitPins (compId : String) (all_pins : List Pin) (s : BfsState) : BfsState :=
  all_pins.foldl
    (fun st p =>
      if p.component_id = compId ∧ p.pin_id ∉ st.processed then addPin p st else st)
    s

/-- The middle loop of `_find_connected_pins`: every other component named in
one connection. -/
def visitComps (cur : Pin) (comp_ids : List String) (all_pins : List Pin)
    (s : BfsState) : BfsState :=
  comp_ids.foldl
    (fun st cid => if cid ≠ cur.component_id then visitPins cid all_pins st else st)
    s

/-- The outer loop of `_find_connected_pins`: every connection that names the
current pin's component. -/
def visitConns (cur : Pin) (conns : List Connection) (all_pins : List Pin)
    (s : BfsState) : BfsState :=
  conns.foldl
    (fun st c =>
      if cur.component_id ∈ c.connected_components then
        visitComps cur c.connected_components all_pins st
      else st)
    s

/-- The `while queue:` loop of `_find_connected_pins`, with explicit fuel.
Every dequeue either drains the queue or adds pins with fresh ids, so
`all_pins.length + 1` steps always suffice (proved below); the Python loop
terminates for the same reason. -/
def bfsLoop (conns : List Connection) (all_pins : List Pin) :
    ℕ → BfsState → List Pin
  | 0, s => s.acc
  | fuel + 1, s =>
    match s.queue with
    | [] => s.acc
    | cur :: rest =>
      bfsLoop conns all_pins fuel (visitConns cur conns all_pins ⟨s.acc, s.processed, rest⟩)

/-- `AdvancedConnectionDetector._find_connected_pins`
(connection_detector.py lines 459-484). -/
def findConnectedPins (conns : List Connection) (all_pins : List Pin)
    (start_pin : Pin) : List Pin :=
  bfsLoop conns all_pins (all_pins.length + 1)
    ⟨[start_pin], [start_pin.pin_id], [start_pin]⟩

/-- The grouping loop of `_identify_electrical_nodes`
(connection_detector.py lines 424-455), returning the `connected_pins`
group found for each unprocessed pin, in discovery order. -/
def groupsLoop (conns : List Connection) (all_pins : List Pin) :
    List Pin → List String → List (List Pin)
  | [], _ => []
  | p :: rest, processed_pins =>
    if p.pin_id ∈ processed_pins then
      groupsLoop conns all_pins rest processed_pins
    else
      let g := findConnectedPins conns all_pins p
      if g.isEmpty then
        groupsLoop conns all_pins rest processed_pins
      else
        g :: groupsLoop conns all_pins rest (processed_pins ++ g.map Pin.pin_id)

/-- The per-node pin groups computed by
`AdvancedConnectionDetector._identify_electrical_nodes`. -/
def identifyGroups (conns : List Connection) (component_pins : List Pin) :
    List (List Pin) :=
  groupsLoop conns component_pins component_pins []

/-- `AdvancedConnectionDetector._identify_electrical_nodes`
(connection_detector.py lines 416-457): one `Node` per pin group, numbered in
discovery order, positioned at the truncated average member position, with
`connected_components` the deduplicated owning ids (Python `list(set(...))`,
embedded as `List.dedup`) and `connection_count` the member count. -/
def identifyElectricalNodes (conns : List Connection)
    (component_pins : List Pin) : List Node :=
  (identifyGroups conns component_pins).enum.map (fun p =>
    let g := p.2
    let n : ℚ := g.length
    { position :=
        (ratTrunc ((g.map (fun q => ((q.position.1 : ℚ)))).sum / n),
         ratTrunc ((g.map (fun q => ((q.position.2 : ℚ)))).sum / n))
      node_id := "node_" ++ toString p.1
      connected_components := (g.map Pin.component_id).dedup
      connection_count := g.length })

/-- Two pins share a node when some group of `_identify_electrical_nodes`
contains both. -/
def sharesNode (conns : List Connection) (pins : List Pin) (p q : Pin) : Prop :=
  ∃ g ∈ identifyGroups conns pins, p ∈ g ∧ q ∈ g

/-- Pin adjacency as `_find_connected_pins` walks it: some connection in
`conns` names both owning components, and the owning components differ. -/
def pinAdj (conns : List Connection) (p q : Pin) : Prop :=
  ∃ c ∈ conns, p.component_id ∈ c.connected_components ∧
    q.component_id ∈ c.connected_components ∧
    q.component_id ≠ p.component_id

/-- One electrically connected hop between pins of the pin list. -/
def pinStep (conns : List Connection) (all_pins : List Pin) (p q : Pin) : Prop :=
  pinAdj conns p q ∧ p ∈ all_pins ∧ q ∈ all_pins

/-- Electrical reachability: the reflexive-transitive closure of `pinStep`. -/
def pinReach (conns : List Connection) (all_pins : List Pin) : Pin → Pin → Prop :=
  Relation.ReflTransGen (pinStep conns all_pins)

/-- The number of pin ids of `all_pins` not yet processed; together with the
queue length this is the decreasing measure of the `while` loop of
`_find_connected_pins`. -/
def unprocessedCount (all_pins : List Pin) (processed : List String) : ℕ :=
  ((all_pins.map Pin.pin_id).toFinset \ processed.toFinset).card

/-- The loop invariant of `_find_connected_pins`: the processed ids are
exactly the ids of the accumulated pins, without duplicates; accumulated pins
come from the pin list; queued pins are accumulated; every accumulated pin is
either still queued or has all its adjacent pins accumulated; every
accumulated pin is reachable from the start pin; and the start pin is
accumulated. -/
structure BfsInv (conns : List Connection) (all_pins : List Pin) (start : Pin)
    (s : BfsState) : Prop where
  procEq : s.processed = s.acc.map Pin.pin_id
  procNd : s.processed.Nodup
  accSub : ∀ p ∈ s.acc, p ∈ all_pins
  queueSub : ∀ p ∈ s.queue, p ∈ s.acc
  frontier : ∀ p ∈ s.acc, p ∈ s.queue ∨ ∀ q ∈ all_pins, pinAdj conns p q → q ∈ s.acc
  sound : ∀ p ∈ s.acc, pinReach conns all_pins start p
  startIn : start ∈ s.acc

/-- The two-resistors-in-series scenario: R1 with pins at (100,100) and
(140,100), R2 with pins at (200,100) and (240,100). -/
def scenarioComponents : List DetectedComponent :=
  [⟨"R1", (100, 90, 140, 110), "resistor"⟩,
   ⟨"R2", (200, 90, 240, 110), "resistor"⟩]

/-- The pins of the series scenario. -/
def scenarioPins : List Pin :=
  extractComponentPins scenarioComponents

/-- The single horizontal segment of the series scenario: its left endpoint
(145,100) is 5px from R1's right pin, its right endpoint (195,100) is 5px
from R2's left pin, and both endpoints are more than 25px from the two outer
pins. -/
def scenarioSegment : MeasuredSegment :=
  ⟨145, 100, 195, 100, 0, 1, 1⟩

/-- The connections the pipeline builds for the series scenario. -/
def scenarioConnections : List Connection :=
  buildConnectionNetwork (classifyLineSegments [scenarioSegment]) scenarioPins

/-- C5: the value-normalization round-trip table: resistance `"10kΩ" → "10k"`,
capacitance `"100μF" → "100u"` and `"22pF" → "22p"`, voltage `"5V" → "5"`. -/
theorem c5_value_round_trip_table :
    parseResistanceValue "10kΩ" = "10k" ∧
    parseCapacitanceValue "100μF" = "100u" ∧
    parseCapacitanceValue "22pF" = "22p" ∧
    parseVoltageValue "5V" = "5" := by
  refine ⟨?_, ?_, ?_, ?_⟩ <;> decide

theorem pyJoin_ends_with (sep x : String) :
    ∀ l : List String, ∃ s, pyJoin sep (l ++ [x]) = s ++ x := by
  intro l
  induction l with
  | nil => exact ⟨"", by simp [pyJoin]⟩
  | cons a l ih =>
    obtain ⟨s, hs⟩ := ih
    cases l with
    | nil => exact ⟨a ++ sep, by simp [pyJoin, String.append_assoc]⟩
    | cons b l' =>
      refine ⟨a ++ sep ++ s, ?_⟩
      have hstep : pyJoin sep ((a :: b :: l') ++ [x])
          = a ++ sep ++ pyJoin sep ((b :: l') ++ [x]) := rfl
      rw [hstep, hs]
      simp [String.append_assoc]

theorem processComponent_line_shape (st : List String × List SpiceDevice) (comp : PyVal) :
    ∀ d ∈ (processComponent st comp).2,
      d ∈ st.2 ∨ ∃ pre post, d.spice_line = pre ++ " N1 N2 " ++ post := by
  intro d hd
  unfold processComponent at hd
  split at hd
  case h_2 => exact Or.inl hd
  case h_1 kvs =>
    split at hd
    case h_2 => exact Or.inl hd
    case h_1 component_type heq =>
      simp only [List.mem_append, List.mem_singleton] at hd
      rcases hd with hd | hd
      · exact Or.inl hd
      · subst hd
        right
        simp only
        split
        · exact ⟨_, _, by rw [String.append_assoc]⟩
        split
        · exact ⟨_, _, by rw [String.append_assoc]⟩
        split
        · exact ⟨_, _, by rw [String.append_assoc]⟩
        · exact ⟨_, _, by rw [String.append_assoc]⟩

theorem foldl_processComponent_line_shape (comps : List PyVal) :
    ∀ st, ∀ d ∈ (comps.foldl processComponent st).2,
      d ∈ st.2 ∨ ∃ pre post, d.spice_line = pre ++ " N1 N2 " ++ post := by
  induction comps with
  | nil => intro st d hd; exact Or.inl hd
  | cons c cs ih =>
    intro st d hd
    rcases ih (processComponent st c) d hd with h | h
    · exact processComponent_line_shape st c d h
    · exact Or.inr h

/-- C10: `generate_spice_netlist` does not read its `connections` and `nodes`
arguments: the result is identical across any two calls with the same
`components`; the returned node mapping is always empty; and every generated
device line carries the fixed literal node tokens `N1 N2`. -/
theorem c10_netlist_independent_of_topology
    (components conns₁ nodes₁ conns₂ nodes₂ : PyVal) :
    generateSpiceNetlist components conns₁ nodes₁
      = generateSpiceNetlist components conns₂ nodes₂ ∧
    (generateSpiceNetlist components conns₁ nodes₁).node_mapping = [] ∧
    ∀ d ∈ (generateSpiceNetlist components conns₁ nodes₁).components,
      ∃ pre post, d.spice_line = pre ++ " N1 N2 " ++ post := by
  refine ⟨rfl, ?_, ?_⟩
  · unfold generateSpiceNetlist
    split <;> rfl
  · intro d hd
    unfold generateSpiceNetlist at hd
    split at hd
    · simp at hd
    · simp only at hd
      rcases foldl_processComponent_line_shape _ _ d hd with h | h
      · simp at h
      · exact h

/-- C3 counterexample: at the non-iterable input `None`, generation fails and
returns the empty string as netlist text, not the header + `.op` + `.end`
skeleton the claim describes (the returned text does not even end in `.end`). -/
theorem c3_counterexample :
    (generateSpiceNetlist PyVal.none PyVal.none PyVal.none).metadata.generation_success
        = false ∧
    (generateSpiceNetlist PyVal.none PyVal.none PyVal.none).netlist = "" ∧
    (generateSpiceNetlist PyVal.none PyVal.none PyVal.none).netlist ≠ specMinimalSkeleton := by
  refine ⟨rfl, rfl, ?_⟩
  decide

/-- C3 amended: netlist generation is total (embedded as a total function, the
source catches every exception), and whenever an internal failure occurs the
result carries an empty device list, the EMPTY netlist text (not the
header + `.op` + `.end` skeleton), `generation_success = false`, and a captured
error description. -/
theorem c3_netlist_failure_shape (components connections nodes : PyVal)
    (h : (generateSpiceNetlist components connections nodes).metadata.generation_success
          = false) :
    (generateSpiceNetlist components connections nodes).components = [] ∧
    (generateSpiceNetlist components connections nodes).netlist = "" ∧
    (generateSpiceNetlist components connections nodes).metadata.error.isSome = true := by
  unfold generateSpiceNetlist at h ⊢
  split at h
  · exact ⟨rfl, rfl, rfl⟩
  · simp at h

theorem c3_netlist_failure_shape_witness :
    (generateSpiceNetlist PyVal.none PyVal.none PyVal.none).metadata.generation_success
        = false ∧
    ((generateSpiceNetlist PyVal.none PyVal.none PyVal.none).components = [] ∧
     (generateSpiceNetlist PyVal.none PyVal.none PyVal.none).netlist = "" ∧
     (generateSpiceNetlist PyVal.none PyVal.none PyVal.none).metadata.error.isSome = true) :=
  ⟨rfl, c3_netlist_failure_shape PyVal.none PyVal.none PyVal.none rfl⟩

theorem filter_eq_nil_iff_not_exists {α : Type} (p : α → Bool) (l : List α) :
    l.filter p = [] ↔ ¬ ∃ a ∈ l, p a = true := by
  simp [List.filter_eq_nil_iff]

/-- C9: the analysis-command generator always emits `.op`; it emits the DC
sweep directive iff some device of kind `V` exists; it emits the AC directive
iff some reactive device (kind `C` or `L`) exists; the generic transient
directive is always the final command; and the netlist text produced by
`generate_spice_netlist` for any component list terminates with `.end`. -/
theorem c9_analysis_directives :
    (∀ cs : List SPICEComponent,
      ".op" ∈ generateAnalysisCommands cs ∧
      (".dc V1 0 10 0.1" ∈ generateAnalysisCommands cs ↔
        ∃ c ∈ cs, c.component_type = "V") ∧
      (".ac dec 10 1 1meg" ∈ generateAnalysisCommands cs ↔
        ∃ c ∈ cs, c.component_type = "C" ∨ c.component_type = "L") ∧
      (generateAnalysisCommands cs).getLast? = some ".tran 1n 1u") ∧
    (∀ (comps : List PyVal) (connections nodes : PyVal),
      ∃ s, (generateSpiceNetlist (PyVal.list comps) connections nodes).netlist
            = s ++ ".end") := by
  constructor
  · intro cs
    have hV := filter_eq_nil_iff_not_exists
      (fun c : SPICEComponent => c.component_type == "V") cs
    have hR := filter_eq_nil_iff_not_exists
      (fun c : SPICEComponent => c.component_type == "C" || c.component_type == "L") cs
    refine ⟨?_, ?_, ?_, ?_⟩
    · simp only [generateAnalysisCommands]
      split_ifs <;> simp
    · simp only [generateAnalysisCommands]
      split_ifs with h₁ h₂ <;> simp_all
    · simp only [generateAnalysisCommands]
      split_ifs with h₁ h₂ <;> simp_all <;>
        (obtain ⟨x, hx, hxx⟩ := hR; exact ⟨x, hx, by tauto⟩)
    · simp only [generateAnalysisCommands]
      split_ifs <;> rw [List.getLast?_concat]
  · intro comps connections nodes
    unfold generateSpiceNetlist
    simp only [pyIter]
    have : ∀ st : List String × List SpiceDevice,
        st.1 ++ ["", ".op", ".end"] = (st.1 ++ ["", ".op"]) ++ [".end"] := by
      intro st; simp
    rw [this]
    exact pyJoin_ends_with "\n" ".end" _

/-- C2 counterexample: on the two-resistors-in-series input the pipeline does
produce exactly one Connection joining R1 and R2, but the node resolver
returns exactly one electrical node, not the three the claim states. -/
theorem scenarioPins_eval :
    scenarioPins =
      [⟨"R1_pin_0", "R1", (100, 100), 1, "resistor"⟩,
       ⟨"R1_pin_1", "R1", (140, 100), 2, "resistor"⟩,
       ⟨"R2_pin_0", "R2", (200, 100), 1, "resistor"⟩,
       ⟨"R2_pin_1", "R2", (240, 100), 2, "resistor"⟩] := by
  norm_num [scenarioPins, scenarioComponents, extractComponentPins,
    getComponentPinLocations, ratTrunc, List.enum, List.enumFrom]
  decide

theorem c2_counterexample :
    scenarioConnections.length = 1 ∧
    (∀ c ∈ scenarioConnections, c.connected_components = ["R1", "R2"]) ∧
    (identifyElectricalNodes scenarioConnections scenarioPins).length = 1 ∧
    ¬ (identifyElectricalNodes scenarioConnections scenarioPins).length = 3 := by
  simp only [scenarioConnections, scenarioPins_eval]
  decide

/-- C2 amended: for the two-resistors-in-series input the pipeline produces
exactly 1 Connection with `connected_components = {R1, R2}`, and the node
resolver — which merges pins at component granularity — produces exactly 1
electrical node containing all four pins (both pins of R1 and both pins of
R2), with `connection_count = 4` and both components attached. -/
theorem c2_series_scenario :
    scenarioConnections.length = 1 ∧
    (∀ c ∈ scenarioConnections, c.connected_components = ["R1", "R2"]) ∧
    ((identifyGroups scenarioConnections scenarioPins).map
        (fun g => g.map Pin.pin_id))
      = [["R1_pin_0", "R2_pin_0", "R2_pin_1", "R1_pin_1"]] ∧
    (identifyElectricalNodes scenarioConnections scenarioPins).length = 1 ∧
    (∀ nd ∈ identifyElectricalNodes scenarioConnections scenarioPins,
      nd.connection_count = 4 ∧
      "R1" ∈ nd.connected_components ∧ "R2" ∈ nd.connected_components) := by
  simp only [scenarioConnections, scenarioPins_eval]
  decide

theorem networkStep_acc (pins : List Pin) (c : ClassifiedConn)
    (acc : List Connection) :
    networkStep pins acc c = acc ++ networkStep pins [] c := by
  simp only [networkStep]
  split_ifs <;> simp

theorem foldl_networkStep_acc (pins : List Pin) :
    ∀ (segs : List ClassifiedConn) (acc : List Connection),
      segs.foldl (networkStep pins) acc = acc ++ segs.foldl (networkStep pins) [] := by
  intro segs
  induction segs with
  | nil => intro acc; simp
  | cons c rest ih =>
    intro acc
    rw [List.foldl_cons, List.foldl_cons, ih (networkStep pins acc c),
      ih (networkStep pins [] c), networkStep_acc, List.append_assoc]

theorem buildConnectionNetwork_cons (pins : List Pin) (c : ClassifiedConn)
    (rest : List ClassifiedConn) :
    buildConnectionNetwork (c :: rest) pins
      = networkStep pins [] c ++ buildConnectionNetwork rest pins := by
  rw [buildConnectionNetwork, List.foldl_cons, foldl_networkStep_acc]
  rfl

/-- C6: the network builder keeps exactly the classified segments having at
least one pin within the 25px proximity threshold of an endpoint (a segment
with no nearby pin is dropped; one whose nearby pins all belong to a single
component is still kept), in input order, each carrying the deduplicated set
of the nearby pins' owning component ids; and each produced Connection's
`connected_components` is exactly the set of component ids owning a pin
within the threshold of one of its endpoints. -/
theorem c6_network_builder (segs : List ClassifiedConn) (pins : List Pin) :
    buildConnectionNetwork segs pins
      = (segs.filter (fun c =>
            !((nearbyPins c.start_point c.end_point pins).isEmpty))).map
          (fun c =>
            { start_point := c.start_point
              end_point := c.end_point
              path := [c.start_point, c.end_point]
              connection_type := c.connection_type
              confidence := c.confidence
              connected_components :=
                ((nearbyPins c.start_point c.end_point pins).map
                  Pin.component_id).dedup }) ∧
    ∀ conn ∈ buildConnectionNetwork segs pins,
      conn.connected_components ≠ [] ∧
      conn.connected_components.Nodup ∧
      ∀ cid, cid ∈ conn.connected_components ↔
        ∃ p ∈ pins, p.component_id = cid ∧
          ((conn.start_point.1 - p.position.1) ^ 2
              + (conn.start_point.2 - p.position.2) ^ 2 < 625 ∨
           (conn.end_point.1 - p.position.1) ^ 2
              + (conn.end_point.2 - p.position.2) ^ 2 < 625) := by
  have hmain : buildConnectionNetwork segs pins
      = (segs.filter (fun c =>
            !((nearbyPins c.start_point c.end_point pins).isEmpty))).map
          (fun c =>
            { start_point := c.start_point
              end_point := c.end_point
              path := [c.start_point, c.end_point]
              connection_type := c.connection_type
              confidence := c.confidence
              connected_components :=
                ((nearbyPins c.start_point c.end_point pins).map
                  Pin.component_id).dedup }) := by
    induction segs with
    | nil => rfl
    | cons c rest ih =>
      rw [buildConnectionNetwork_cons, List.filter_cons]
      by_cases hnb : (nearbyPins c.start_point c.end_point pins).isEmpty
      · have hnil : nearbyPins c.start_point c.end_point pins = [] :=
          List.isEmpty_iff.mp hnb
        have h0 : networkStep pins [] c = [] := by
          simp [networkStep, hnil]
        simp [h0, hnb, ih]
      · have hne : nearbyPins c.start_point c.end_point pins ≠ [] := by
          simpa [List.isEmpty_iff] using hnb
        have hlen : ((nearbyPins c.start_point c.end_point pins).map
            Pin.component_id).dedup.length ≥ 1 :=
          Nat.one_le_iff_ne_zero.mpr (fun h =>
            hne (by simpa [List.dedup_eq_nil, List.map_eq_nil]
              using List.length_eq_zero.mp h))
        have h1 : networkStep pins [] c
            = [{ start_point := c.start_point
                 end_point := c.end_point
                 path := [c.start_point, c.end_point]
                 connection_type := c.connection_type
                 confidence := c.confidence
                 connected_components :=
                   ((nearbyPins c.start_point c.end_point pins).map
                     Pin.component_id).dedup }] := by
          simp [networkStep, hlen]
        simp [h1, hnb, ih]
  refine ⟨hmain, ?_⟩
  intro conn hconn
  rw [hmain] at hconn
  rcases List.mem_map.mp hconn with ⟨c, hc, rfl⟩
  have hcf := (List.mem_filter.mp hc).2
  have hne : nearbyPins c.start_point c.end_point pins ≠ [] := by
    simpa [List.isEmpty_iff] using hcf
  refine ⟨by simp [List.dedup_eq_nil, hne], List.nodup_dedup _, ?_⟩
  intro cid
  constructor
  · intro hcid
    rcases List.mem_map.mp (List.mem_dedup.mp hcid) with ⟨p, hp, rfl⟩
    have hpmem := List.mem_filter.mp hp
    refine ⟨p, hpmem.1, rfl, ?_⟩
    have hpred := hpmem.2
    simp only [Bool.or_eq_true, decide_eq_true_eq] at hpred
    exact hpred
  · rintro ⟨p, hp, rfl, hnear⟩
    refine List.mem_dedup.mpr (List.mem_map.mpr ⟨p, List.mem_filter.mpr ⟨hp, ?_⟩, rfl⟩)
    simp only [Bool.or_eq_true, decide_eq_true_eq]
    exact hnear

/-- C7: the classifier outputs exactly one record per input segment in input
order, each record keeping its segment's endpoints, with confidence equal to
0.7 plus 0.2 when the measured angle lies within 15° of 0°, 90° or 180°,
plus 0.1 when the length exceeds 30px, plus 0.1 when thickness ≤ 3px and
continuity > 0.8, clamped to at most 1; the confidence always lies in
[0.7, 1]. -/
theorem c7_classifier_output (segs : List MeasuredSegment) :
    (classifyLineSegments segs).length = segs.length ∧
    ∀ (i : ℕ), i < segs.length →
      ∃ s r, segs[i]? = some s ∧ (classifyLineSegments segs)[i]? = some r ∧
        r.start_point = (s.x1, s.y1) ∧ r.end_point = (s.x2, s.y2) ∧
        r.confidence
          = min (7/10
              + (if |s.angle| < 15 ∨ |s.angle - 90| < 15 ∨ |s.angle - 180| < 15
                  then (2 : ℚ)/10 else 0)
              + (if segLengthSq s > 900 then (1 : ℚ)/10 else 0)
              + (if s.thickness ≤ 3 ∧ s.continuity > 8/10 then (1 : ℚ)/10 else 0)) 1 ∧
        (7 : ℚ)/10 ≤ r.confidence ∧ r.confidence ≤ 1 := by
  constructor
  · simp [classifyLineSegments]
  · intro i h
    refine ⟨segs.get ⟨i, h⟩, classifySegment i (segs.get ⟨i, h⟩),
      List.getElem?_eq_getElem h, ?_, rfl, rfl, ?_, ?_, ?_⟩
    · rw [classifyLineSegments, List.getElem?_map, List.getElem?_enum,
        List.getElem?_eq_getElem h]
      rfl
    · simp only [classifySegment, pyMin]
      split_ifs <;> norm_num [min_def] at *
    · simp only [classifySegment, pyMin]
      split_ifs <;> norm_num at *
    · simp only [classifySegment, pyMin]
      split_ifs <;> norm_num at *

theorem c7_classifier_output_witness :
    0 < ([⟨145, 100, 195, 100, 0, 1, 1⟩] : List MeasuredSegment).length ∧
    ∃ s r, ([⟨145, 100, 195, 100, 0, 1, 1⟩] : List MeasuredSegment)[0]? = some s ∧
      (classifyLineSegments [⟨145, 100, 195, 100, 0, 1, 1⟩])[0]? = some r ∧
      r.start_point = (s.x1, s.y1) ∧ r.end_point = (s.x2, s.y2) ∧
      r.confidence
        = min (7/10
            + (if |s.angle| < 15 ∨ |s.angle - 90| < 15 ∨ |s.angle - 180| < 15
                then (2 : ℚ)/10 else 0)
            + (if segLengthSq s > 900 then (1 : ℚ)/10 else 0)
            + (if s.thickness ≤ 3 ∧ s.continuity > 8/10 then (1 : ℚ)/10 else 0)) 1 ∧
      (7 : ℚ)/10 ≤ r.confidence ∧ r.confidence ≤ 1 :=
  ⟨by decide,
   (c7_classifier_output [⟨145, 100, 195, 100, 0, 1, 1⟩]).2 0 (by decide)⟩

/-- C4: with zero detected components there are zero pins, the network builder
drops every segment, the node resolver returns zero groups and zero nodes,
and netlist generation returns the header + `.op` + `.end` text with no device
lines and `generation_success = true`. -/
theorem c4_graceful_emptiness (segs : List ClassifiedConn)
    (conns : List Connection) (connections nodes : PyVal) :
    extractComponentPins [] = [] ∧
    buildConnectionNetwork segs (extractComponentPins []) = [] ∧
    identifyGroups conns (extractComponentPins []) = [] ∧
    identifyElectricalNodes conns (extractComponentPins []) = [] ∧
    (generateSpiceNetlist (PyVal.list []) connections nodes).netlist
      = "* Generated SPICE Netlist\n* Hardware AI Orchestrator\n\n\n.op\n.end" ∧
    (generateSpiceNetlist (PyVal.list []) connections nodes).components = [] ∧
    (generateSpiceNetlist (PyVal.list []) connections nodes).metadata.generation_success
      = true := by
  refine ⟨rfl, ?_, rfl, rfl, rfl, rfl, rfl⟩
  have : ∀ (l : List ClassifiedConn), buildConnectionNetwork l [] = [] := by
    intro l
    induction l with
    | nil => rfl
    | cons c rest ih => rw [buildConnectionNetwork_cons, ih]; rfl
  exact this segs

theorem lastIdx_foldl_spec (cid : String) :
    ∀ (l : List (ℕ × DetectedComponent)) (init : Option ℕ) (j : ℕ),
      l.foldl (fun acc p => if p.2.id = cid then some p.1 else acc) init = some j →
      init = some j ∨ ∃ p ∈ l, p.2.id = cid ∧ p.1 = j := by
  intro l
  induction l with
  | nil => intro init j h; exact Or.inl h
  | cons p rest ih =>
    intro init j h
    rw [List.foldl_cons] at h
    rcases ih _ j h with h' | ⟨q, hq, hqid, hqj⟩
    · by_cases hp : p.2.id = cid
      · rw [if_pos hp] at h'
        exact Or.inr ⟨p, List.mem_cons_self p rest, hp, Option.some.inj h'⟩
      · rw [if_neg hp] at h'
        exact Or.inl h'
    · exact Or.inr ⟨q, List.mem_cons_of_mem p hq, hqid, hqj⟩

theorem compIdToIdx_spec (components : List DetectedComponent) (cid : String)
    (j : ℕ) (h : compIdToIdx components cid = some j) :
    ∃ comp, components[j]? = some comp ∧ comp.id = cid := by
  unfold compIdToIdx at h
  rcases lastIdx_foldl_spec cid components.enum Option.none j h with
    h' | ⟨p, hp, hpid, hpj⟩
  · exact absurd h' (by simp)
  · refine ⟨p.2, ?_, hpid⟩
    have hmem := List.mem_enum_iff_get?.mp hp
    rw [← hpj, ← List.get?_eq_getElem?]
    exact hmem

theorem markPair_row_eq (toIdx : String → Option ℕ) (c1 c2 : String)
    (M : ℕ → ℕ → ℕ) (i j : ℕ) (h1 : toIdx c1 ≠ some i) (h2 : toIdx c2 ≠ some i) :
    markPair toIdx c1 c2 M i j = M i j := by
  unfold markPair
  cases heq1 : toIdx c1 with
  | none => rfl
  | some a =>
    cases heq2 : toIdx c2 with
    | none => rfl
    | some b =>
      show (if i = a ∧ j = b ∨ i = b ∧ j = a then 1 else M i j) = M i j
      rw [if_neg]
      rintro (⟨rfl, -⟩ | ⟨rfl, -⟩)
      · exact h1 heq1
      · exact h2 heq2

theorem foldl_markPair_row (toIdx : String → Option ℕ) (c1 : String) (i j : ℕ)
    (h1 : toIdx c1 ≠ some i) :
    ∀ (cs : List String) (M : ℕ → ℕ → ℕ), (∀ c ∈ cs, toIdx c ≠ some i) →
      (cs.foldl (fun M' c2 => markPair toIdx c1 c2 M') M) i j = M i j := by
  intro cs
  induction cs with
  | nil => intro M _; rfl
  | cons c rest ih =>
    intro M hall
    rw [List.foldl_cons,
      ih (markPair toIdx c1 c M) (fun c' hc' => hall c' (List.mem_cons_of_mem c hc'))]
    exact markPair_row_eq toIdx c1 c M i j h1 (hall c (List.mem_cons_self c rest))

theorem markPairs_row (toIdx : String → Option ℕ) (i j : ℕ) :
    ∀ (cs : List String) (M : ℕ → ℕ → ℕ), (∀ c ∈ cs, toIdx c ≠ some i) →
      markPairs toIdx cs M i j = M i j := by
  intro cs
  induction cs with
  | nil => intro M _; rfl
  | cons c1 rest ih =>
    intro M hall
    have hstep : markPairs toIdx (c1 :: rest) M
        = markPairs toIdx rest
            (rest.foldl (fun M' c2 => markPair toIdx c1 c2 M') M) := rfl
    rw [hstep, ih _ (fun c hc => hall c (List.mem_cons_of_mem c1 hc))]
    exact foldl_markPair_row toIdx c1 i j (hall c1 (List.mem_cons_self c1 rest))
      rest M (fun c hc => hall c (List.mem_cons_of_mem c1 hc))

theorem buildConnectivityMatrix_row_zero (conns : List Connection)
    (components : List DetectedComponent) (i : ℕ) (comp : DetectedComponent)
    (hcomp : components[i]? = some comp)
    (hiso : ∀ conn ∈ conns, comp.id ∉ conn.connected_components) :
    ∀ j, buildConnectivityMatrix conns components i j = 0 := by
  have key : ∀ (cs : List Connection) (M : ℕ → ℕ → ℕ),
      (∀ conn ∈ cs, comp.id ∉ conn.connected_components) →
      (∀ j, M i j = 0) →
      ∀ j, (cs.foldl (fun M conn =>
          markPairs (compIdToIdx components) conn.connected_components M) M) i j
        = 0 := by
    intro cs
    induction cs with
    | nil => intro M _ hM j; exact hM j
    | cons conn rest ih =>
      intro M hall hM j
      rw [List.foldl_cons]
      refine ih _ (fun c hc => hall c (List.mem_cons_of_mem conn hc)) ?_ j
      intro j'
      rw [markPairs_row (compIdToIdx components) i j' conn.connected_components M ?_]
      · exact hM j'
      · intro c hc hsome
        rcases compIdToIdx_spec components c i hsome with ⟨comp', hcomp', hid⟩
        rw [hcomp] at hcomp'
        rw [← Option.some.inj hcomp'] at hid
        exact hall conn (List.mem_cons_self conn rest) (hid ▸ hc)
  intro j
  unfold buildConnectivityMatrix
  exact key conns _ hiso (fun _ => rfl) j

/-- C8: a component that appears in no Connection's `connected_components`
has a zero row sum in the adjacency matrix, is listed in
`isolated_components`, and causes an issue of type `isolation` with severity
`warning` to be present among the potential issues. -/
theorem c8_isolated_component (components : List DetectedComponent)
    (conns : List Connection) (nodes : List Node) (i : ℕ)
    (comp : DetectedComponent) (hcomp : components[i]? = some comp)
    (hiso : ∀ conn ∈ conns, comp.id ∉ conn.connected_components) :
    rowSum (buildConnectivityMatrix conns components) components.length i = 0 ∧
    comp.id ∈ findIsolatedComponents (buildConnectivityMatrix conns components)
      components ∧
    ∃ iss ∈ identifyPotentialIssues conns nodes components,
      iss.type = "isolation" ∧ iss.severity = "warning" := by
  have hrow := buildConnectivityMatrix_row_zero conns components i comp hcomp hiso
  have hsum : rowSum (buildConnectivityMatrix conns components)
      components.length i = 0 := by
    unfold rowSum
    apply List.sum_eq_zero
    intro x hx
    rcases List.mem_map.mp hx with ⟨j, _, rfl⟩
    exact hrow j
  have hmem : comp.id ∈ findIsolatedComponents
      (buildConnectivityMatrix conns components) components := by
    unfold findIsolatedComponents
    apply List.mem_map.mpr
    refine ⟨(i, comp), List.mem_filter.mpr ⟨?_, ?_⟩, rfl⟩
    · exact List.mem_enum_iff_get?.mpr (by rw [List.get?_eq_getElem?]; exact hcomp)
    · simp [hsum]
  refine ⟨hsum, hmem, ?_⟩
  have hne : findIsolatedComponents (buildConnectivityMatrix conns components)
      components ≠ [] := by
    intro h
    rw [h] at hmem
    exact absurd hmem (List.not_mem_nil _)
  simp only [identifyPotentialIssues]
  rw [if_neg hne]
  exact ⟨_, List.mem_append_left _ (List.mem_cons_self _ _), rfl, rfl⟩

theorem c8_isolated_component_witness :
    (([⟨"R1", (0, 0, 10, 10), "resistor"⟩] : List DetectedComponent)[0]?
        = some ⟨"R1", (0, 0, 10, 10), "resistor"⟩) ∧
    (∀ conn ∈ ([] : List Connection),
        (⟨"R1", (0, 0, 10, 10), "resistor"⟩ : DetectedComponent).id
          ∉ conn.connected_components) ∧
    (rowSum (buildConnectivityMatrix [] [⟨"R1", (0, 0, 10, 10), "resistor"⟩])
        ([⟨"R1", (0, 0, 10, 10), "resistor"⟩] : List DetectedComponent).length 0
        = 0 ∧
     (⟨"R1", (0, 0, 10, 10), "resistor"⟩ : DetectedComponent).id
        ∈ findIsolatedComponents
            (buildConnectivityMatrix [] [⟨"R1", (0, 0, 10, 10), "resistor"⟩])
            [⟨"R1", (0, 0, 10, 10), "resistor"⟩] ∧
     ∃ iss ∈ identifyPotentialIssues [] []
          [⟨"R1", (0, 0, 10, 10), "resistor"⟩],
       iss.type = "isolation" ∧ iss.severity = "warning") :=
  ⟨rfl, fun conn h => absurd h (List.not_mem_nil conn),
   c8_isolated_component [⟨"R1", (0, 0, 10, 10), "resistor"⟩] [] [] 0
     ⟨"R1", (0, 0, 10, 10), "resistor"⟩ rfl
     (fun conn h => absurd h (List.not_mem_nil conn))⟩

theorem pin_eq_of_id_eq {pins : List Pin} (hnd : (pins.map Pin.pin_id).Nodup)
    {p q : Pin} (hp : p ∈ pins) (hq : q ∈ pins) (h : p.pin_id = q.pin_id) :
    p = q :=
  List.inj_on_of_nodup_map hnd hp hq h

theorem pinAdj_symm {conns : List Connection} {p q : Pin}
    (h : pinAdj conns p q) : pinAdj conns q p := by
  obtain ⟨c, hc, hp, hq, hne⟩ := h
  exact ⟨c, hc, hq, hp, fun e => hne e.symm⟩

theorem pinAdj_mono {conns : List Connection} {c : Connection} {p q : Pin}
    (h : pinAdj conns p q) : pinAdj (c :: conns) p q := by
  obtain ⟨c', hc', hp, hq, hne⟩ := h
  exact ⟨c', List.mem_cons_of_mem c hc', hp, hq, hne⟩

theorem pinStep_symm {conns : List Connection} {all_pins : List Pin} :
    Symmetric (pinStep conns all_pins) := by
  rintro p q ⟨hadj, hp, hq⟩
  exact ⟨pinAdj_symm hadj, hq, hp⟩

theorem pinReach_symm {conns : List Connection} {all_pins : List Pin}
    {p q : Pin} (h : pinReach conns all_pins p q) :
    pinReach conns all_pins q p :=
  Relation.ReflTransGen.symmetric pinStep_symm h

theorem pinReach_trans {conns : List Connection} {all_pins : List Pin}
    {p q r : Pin} (h₁ : pinReach conns all_pins p q)
    (h₂ : pinReach conns all_pins q r) : pinReach conns all_pins p r :=
  Relation.ReflTransGen.trans h₁ h₂

theorem visitPins_go (compId : String) :
    ∀ (l : List Pin), (l.map Pin.pin_id).Nodup →
    ∀ (s : BfsState), ∃ Δ : List Pin,
      l.foldl (fun st p =>
          if p.component_id = compId ∧ p.pin_id ∉ st.processed then addPin p st
          else st) s
        = ⟨s.acc ++ Δ, s.processed ++ Δ.map Pin.pin_id, s.queue ++ Δ⟩ ∧
      (∀ p ∈ Δ, p ∈ l ∧ p.component_id = compId ∧ p.pin_id ∉ s.processed) ∧
      (Δ.map Pin.pin_id).Nodup ∧
      (∀ q ∈ l, q.component_id = compId → q.pin_id ∉ s.processed → q ∈ Δ) := by
  intro l
  induction l with
  | nil =>
    intro _ s
    exact ⟨[], by simp, by simp, by simp, by simp⟩
  | cons p rest ih =>
    intro hnd s
    have hnd' : (rest.map Pin.pin_id).Nodup := (List.nodup_cons.mp hnd).2
    have hfresh : p.pin_id ∉ rest.map Pin.pin_id := (List.nodup_cons.mp hnd).1
    rw [List.foldl_cons]
    by_cases hp : p.component_id = compId ∧ p.pin_id ∉ s.processed
    · rw [if_pos hp]
      obtain ⟨Δ, heq, hsound, hnodup, hcomplete⟩ :=
        ih hnd' ⟨s.acc ++ [p], s.processed ++ [p.pin_id], s.queue ++ [p]⟩
      refine ⟨p :: Δ, ?_, ?_, ?_, ?_⟩
      · rw [show addPin p s
            = ⟨s.acc ++ [p], s.processed ++ [p.pin_id], s.queue ++ [p]⟩ from rfl,
          heq]
        simp
      · intro x hx
        rcases List.mem_cons.mp hx with rfl | hx
        · exact ⟨List.mem_cons_self x rest, hp.1, hp.2⟩
        · obtain ⟨hx1, hx2, hx3⟩ := hsound x hx
          refine ⟨List.mem_cons_of_mem p hx1, hx2, fun hmem => hx3 ?_⟩
          simp only [List.mem_append]
          exact Or.inl hmem
      · rw [List.map_cons, List.nodup_cons]
        refine ⟨?_, hnodup⟩
        intro hpm
        rcases List.mem_map.mp hpm with ⟨δ, hδ, hδid⟩
        have := (hsound δ hδ).2.2
        simp only [List.mem_append, List.mem_singleton] at this
        exact this (Or.inr hδid)
      · intro q hq hqc hqp
        rcases List.mem_cons.mp hq with rfl | hq
        · exact List.mem_cons_self q Δ
        · refine List.mem_cons_of_mem p (hcomplete q hq hqc ?_)
          simp only [List.mem_append, List.mem_singleton]
          rintro (h | h)
          · exact hqp h
          · exact hfresh (h ▸ List.mem_map_of_mem Pin.pin_id hq)
    · rw [if_neg hp]
      obtain ⟨Δ, heq, hsound, hnodup, hcomplete⟩ := ih hnd' s
      refine ⟨Δ, heq, ?_, hnodup, ?_⟩
      · intro x hx
        obtain ⟨hx1, hx2, hx3⟩ := hsound x hx
        exact ⟨List.mem_cons_of_mem p hx1, hx2, hx3⟩
      · intro q hq hqc hqp
        rcases List.mem_cons.mp hq with rfl | hq
        · exact absurd ⟨hqc, hqp⟩ hp
        · exact hcomplete q hq hqc hqp

theorem visitPins_spec (compId : String) (all_pins : List Pin)
    (hnd : (all_pins.map Pin.pin_id).Nodup) (s : BfsState) :
    ∃ Δ : List Pin,
      visitPins compId all_pins s
        = ⟨s.acc ++ Δ, s.processed ++ Δ.map Pin.pin_id, s.queue ++ Δ⟩ ∧
      (∀ p ∈ Δ, p ∈ all_pins ∧ p.component_id = compId ∧ p.pin_id ∉ s.processed) ∧
      (Δ.map Pin.pin_id).Nodup ∧
      (∀ q ∈ all_pins, q.component_id = compId → q.pin_id ∉ s.processed → q ∈ Δ) :=
  visitPins_go compId all_pins hnd s

theorem visitComps_go (cur : Pin) (all_pins : List Pin)
    (hnd : (all_pins.map Pin.pin_id).Nodup) :
    ∀ (cids : List String) (s : BfsState), ∃ Δ : List Pin,
      visitComps cur cids all_pins s
        = ⟨s.acc ++ Δ, s.processed ++ Δ.map Pin.pin_id, s.queue ++ Δ⟩ ∧
      (∀ p ∈ Δ, p ∈ all_pins ∧ p.component_id ∈ cids ∧
        p.component_id ≠ cur.component_id ∧ p.pin_id ∉ s.processed) ∧
      (Δ.map Pin.pin_id).Nodup ∧
      (∀ q ∈ all_pins, q.component_id ∈ cids →
        q.component_id ≠ cur.component_id → q.pin_id ∉ s.processed → q ∈ Δ) := by
  intro cids
  induction cids with
  | nil =>
    intro s
    refine ⟨[], by simp [visitComps], by simp, by simp, ?_⟩
    intro q _ hcin _ _
    exact absurd hcin (List.not_mem_nil _)
  | cons cid rest ih =>
    intro s
    have hstep : visitComps cur (cid :: rest) all_pins s
        = visitComps cur rest all_pins
            (if cid ≠ cur.component_id then visitPins cid all_pins s else s) := rfl
    by_cases hc : cid ≠ cur.component_id
    · obtain ⟨Δ₁, heq₁, hsound₁, hnodup₁, hcomplete₁⟩ :=
        visitPins_spec cid all_pins hnd s
      obtain ⟨Δ₂, heq₂, hsound₂, hnodup₂, hcomplete₂⟩ :=
        ih ⟨s.acc ++ Δ₁, s.processed ++ Δ₁.map Pin.pin_id, s.queue ++ Δ₁⟩
      refine ⟨Δ₁ ++ Δ₂, ?_, ?_, ?_, ?_⟩
      · rw [hstep, if_pos hc, heq₁, heq₂]
        simp [List.append_assoc]
      · intro p hp
        rcases List.mem_append.mp hp with h | h
        · obtain ⟨h1, h2, h3⟩ := hsound₁ p h
          refine ⟨h1, ?_, ?_, h3⟩
          · rw [h2]; exact List.mem_cons_self cid rest
          · rw [h2]; exact hc
        · obtain ⟨h1, h2, h3, h4⟩ := hsound₂ p h
          exact ⟨h1, List.mem_cons_of_mem cid h2, h3,
            fun hmem => h4 (List.mem_append_left _ hmem)⟩
      · rw [List.map_append]
        refine List.Nodup.append hnodup₁ hnodup₂ (List.disjoint_left.mpr ?_)
        intro a ha haΔ₂
        rcases List.mem_map.mp haΔ₂ with ⟨δ, hδ, hδid⟩
        exact (hsound₂ δ hδ).2.2.2 (List.mem_append_right _ (hδid ▸ ha))
      · intro q hq hqin hqne hqp
        rcases List.mem_cons.mp hqin with hq1 | hq2
        · exact List.mem_append_left _ (hcomplete₁ q hq hq1 hqp)
        · by_cases hmem : q.pin_id ∈ s.processed ++ Δ₁.map Pin.pin_id
          · rcases List.mem_append.mp hmem with h | h
            · exact absurd h hqp
            · rcases List.mem_map.mp h with ⟨δ, hδ, hδid⟩
              have hδq : δ = q := pin_eq_of_id_eq hnd (hsound₁ δ hδ).1 hq hδid
              exact List.mem_append_left _ (hδq ▸ hδ)
          · exact List.mem_append_right _ (hcomplete₂ q hq hq2 hqne hmem)
    · obtain ⟨Δ, heq, hsound, hnodup, hcomplete⟩ := ih s
      refine ⟨Δ, ?_, ?_, hnodup, ?_⟩
      · rw [hstep, if_neg hc, heq]
      · intro p hp
        obtain ⟨h1, h2, h3, h4⟩ := hsound p hp
        exact ⟨h1, List.mem_cons_of_mem cid h2, h3, h4⟩
      · intro q hq hqin hqne hqp
        rcases List.mem_cons.mp hqin with h | h
        · exact absurd (h.trans (not_not.mp hc)) hqne
        · exact hcomplete q hq h hqne hqp

theorem visitConns_go (cur : Pin) (all_pins : List Pin)
    (hnd : (all_pins.map Pin.pin_id).Nodup) :
    ∀ (cl : List Connection) (s : BfsState), ∃ Δ : List Pin,
      visitConns cur cl all_pins s
        = ⟨s.acc ++ Δ, s.processed ++ Δ.map Pin.pin_id, s.queue ++ Δ⟩ ∧
      (∀ p ∈ Δ, p ∈ all_pins ∧ pinAdj cl cur p ∧ p.pin_id ∉ s.processed) ∧
      (Δ.map Pin.pin_id).Nodup ∧
      (∀ q ∈ all_pins, pinAdj cl cur q → q.pin_id ∉ s.processed → q ∈ Δ) := by
  intro cl
  induction cl with
  | nil =>
    intro s
    refine ⟨[], by simp [visitConns], by simp, by simp, ?_⟩
    intro q _ hadj _
    obtain ⟨c, hc, -⟩ := hadj
    exact absurd hc (List.not_mem_nil _)
  | cons c rest ih =>
    intro s
    have hstep : visitConns cur (c :: rest) all_pins s
        = visitConns cur rest all_pins
            (if cur.component_id ∈ c.connected_components then
              visitComps cur c.connected_components all_pins s else s) := rfl
    by_cases hin : cur.component_id ∈ c.connected_components
    · obtain ⟨Δ₁, heq₁, hsound₁, hnodup₁, hcomplete₁⟩ :=
        visitComps_go cur all_pins hnd c.connected_components s
      obtain ⟨Δ₂, heq₂, hsound₂, hnodup₂, hcomplete₂⟩ :=
        ih ⟨s.acc ++ Δ₁, s.processed ++ Δ₁.map Pin.pin_id, s.queue ++ Δ₁⟩
      refine ⟨Δ₁ ++ Δ₂, ?_, ?_, ?_, ?_⟩
      · rw [hstep, if_pos hin, heq₁, heq₂]
        simp [List.append_assoc]
      · intro p hp
        rcases List.mem_append.mp hp with h | h
        · obtain ⟨h1, h2, h3, h4⟩ := hsound₁ p h
          exact ⟨h1, ⟨c, List.mem_cons_self c rest, hin, h2, h3⟩, h4⟩
        · obtain ⟨h1, h2, h3⟩ := hsound₂ p h
          exact ⟨h1, pinAdj_mono h2, fun hmem => h3 (List.mem_append_left _ hmem)⟩
      · rw [List.map_append]
        refine List.Nodup.append hnodup₁ hnodup₂ (List.disjoint_left.mpr ?_)
        intro a ha haΔ₂
        rcases List.mem_map.mp haΔ₂ with ⟨δ, hδ, hδid⟩
        exact (hsound₂ δ hδ).2.2 (List.mem_append_right _ (hδid ▸ ha))
      · intro q hq hadj hqp
        obtain ⟨c', hc', hcur', hq', hne'⟩ := hadj
        rcases List.mem_cons.mp hc' with rfl | hc'
        · exact List.mem_append_left _ (hcomplete₁ q hq hq' hne' hqp)
        · by_cases hmem : q.pin_id ∈ s.processed ++ Δ₁.map Pin.pin_id
          · rcases List.mem_append.mp hmem with h | h
            · exact absurd h hqp
            · rcases List.mem_map.mp h with ⟨δ, hδ, hδid⟩
              have hδq : δ = q := pin_eq_of_id_eq hnd (hsound₁ δ hδ).1 hq hδid
              exact List.mem_append_left _ (hδq ▸ hδ)
          · exact List.mem_append_right _
              (hcomplete₂ q hq ⟨c', hc', hcur', hq', hne'⟩ hmem)
    · obtain ⟨Δ, heq, hsound, hnodup, hcomplete⟩ := ih s
      refine ⟨Δ, ?_, ?_, hnodup, ?_⟩
      · rw [hstep, if_neg hin, heq]
      · intro p hp
        obtain ⟨h1, h2, h3⟩ := hsound p hp
        exact ⟨h1, pinAdj_mono h2, h3⟩
      · intro q hq hadj hqp
        obtain ⟨c', hc', hcur', hq', hne'⟩ := hadj
        rcases List.mem_cons.mp hc' with rfl | hc'
        · exact absurd hcur' hin
        · exact hcomplete q hq ⟨c', hc', hcur', hq', hne'⟩ hqp

theorem unprocessedCount_append (all_pins : List Pin) (processed : List String)
    (Δ : List Pin) (hsub : ∀ p ∈ Δ, p ∈ all_pins)
    (hfresh : ∀ p ∈ Δ, p.pin_id ∉ processed)
    (hnodup : (Δ.map Pin.pin_id).Nodup) :
    unprocessedCount all_pins (processed ++ Δ.map Pin.pin_id) + Δ.length
      = unprocessedCount all_pins processed := by
  unfold unprocessedCount
  rw [List.toFinset_append]
  have hsd : (all_pins.map Pin.pin_id).toFinset
        \ (processed.toFinset ∪ (Δ.map Pin.pin_id).toFinset)
      = ((all_pins.map Pin.pin_id).toFinset \ processed.toFinset)
        \ (Δ.map Pin.pin_id).toFinset :=
    (sdiff_sdiff _ _ _).symm
  rw [hsd]
  have hD : (Δ.map Pin.pin_id).toFinset ⊆
      (all_pins.map Pin.pin_id).toFinset \ processed.toFinset := by
    intro a ha
    rw [List.mem_toFinset] at ha
    rcases List.mem_map.mp ha with ⟨δ, hδ, rfl⟩
    rw [Finset.mem_sdiff, List.mem_toFinset, List.mem_toFinset]
    exact ⟨List.mem_map_of_mem Pin.pin_id (hsub δ hδ), hfresh δ hδ⟩
  have hcard : (Δ.map Pin.pin_id).toFinset.card = Δ.length := by
    rw [List.toFinset_card_of_nodup hnodup, List.length_map]
  have hle : Δ.length
      ≤ ((all_pins.map Pin.pin_id).toFinset \ processed.toFinset).card := by
    rw [← hcard]
    exact Finset.card_le_card hD
  rw [Finset.card_sdiff hD, hcard]
  exact Nat.sub_add_cancel hle

theorem bfs_step (conns : List Connection) (all_pins : List Pin) (start : Pin)
    (hnd : (all_pins.map Pin.pin_id).Nodup)
    (s : BfsState) (cur : Pin) (rest : List Pin)
    (hq : s.queue = cur :: rest) (hinv : BfsInv conns all_pins start s) :
    BfsInv conns all_pins start
      (visitConns cur conns all_pins ⟨s.acc, s.processed, rest⟩) ∧
    (visitConns cur conns all_pins ⟨s.acc, s.processed, rest⟩).queue.length
      + unprocessedCount all_pins
          (visitConns cur conns all_pins ⟨s.acc, s.processed, rest⟩).processed + 1
      = s.queue.length + unprocessedCount all_pins s.processed := by
  obtain ⟨Δ, heq, hsound, hnodup, hcomplete⟩ :=
    visitConns_go cur all_pins hnd conns ⟨s.acc, s.processed, rest⟩
  have hcur_acc : cur ∈ s.acc :=
    hinv.queueSub cur (by rw [hq]; exact List.mem_cons_self cur rest)
  have hcur_all : cur ∈ all_pins := hinv.accSub cur hcur_acc
  constructor
  · rw [heq]
    refine ⟨?_, ?_, ?_, ?_, ?_, ?_, ?_⟩
    · show s.processed ++ Δ.map Pin.pin_id = (s.acc ++ Δ).map Pin.pin_id
      rw [List.map_append, hinv.procEq]
    · show (s.processed ++ Δ.map Pin.pin_id).Nodup
      refine List.Nodup.append hinv.procNd hnodup (List.disjoint_left.mpr ?_)
      intro a ha haΔ
      rcases List.mem_map.mp haΔ with ⟨δ, hδ, hδid⟩
      exact (hsound δ hδ).2.2 (hδid ▸ ha)
    · show ∀ p ∈ s.acc ++ Δ, p ∈ all_pins
      intro p hp
      rcases List.mem_append.mp hp with h | h
      · exact hinv.accSub p h
      · exact (hsound p h).1
    · show ∀ p ∈ rest ++ Δ, p ∈ s.acc ++ Δ
      intro p hp
      rcases List.mem_append.mp hp with h | h
      · exact List.mem_append_left _
          (hinv.queueSub p (by rw [hq]; exact List.mem_cons_of_mem cur h))
      · exact List.mem_append_right _ h
    · show ∀ p ∈ s.acc ++ Δ,
        p ∈ rest ++ Δ ∨ ∀ q ∈ all_pins, pinAdj conns p q → q ∈ s.acc ++ Δ
      intro p hp
      rcases List.mem_append.mp hp with h | h
      · rcases hinv.frontier p h with hpq | hcl
        · rw [hq] at hpq
          rcases List.mem_cons.mp hpq with rfl | hpr
          · right
            intro q hqall hadj
            by_cases hqp : q.pin_id ∈ s.processed
            · rw [hinv.procEq] at hqp
              rcases List.mem_map.mp hqp with ⟨a, haacc, haid⟩
              have haq : a = q :=
                pin_eq_of_id_eq hnd (hinv.accSub a haacc) hqall haid
              exact List.mem_append_left _ (haq ▸ haacc)
            · exact List.mem_append_right _ (hcomplete q hqall hadj hqp)
          · exact Or.inl (List.mem_append_left _ hpr)
        · right
          intro q hqall hadj
          exact List.mem_append_left _ (hcl q hqall hadj)
      · exact Or.inl (List.mem_append_right _ h)
    · show ∀ p ∈ s.acc ++ Δ, pinReach conns all_pins start p
      intro p hp
      rcases List.mem_append.mp hp with h | h
      · exact hinv.sound p h
      · obtain ⟨h1, h2, h3⟩ := hsound p h
        exact Relation.ReflTransGen.tail (hinv.sound cur hcur_acc) ⟨h2, hcur_all, h1⟩
    · show start ∈ s.acc ++ Δ
      exact List.mem_append_left _ hinv.startIn
  · rw [heq]
    show (rest ++ Δ).length
        + unprocessedCount all_pins (s.processed ++ Δ.map Pin.pin_id) + 1
      = s.queue.length + unprocessedCount all_pins s.processed
    have hUC := unprocessedCount_append all_pins s.processed Δ
      (fun p hp => (hsound p hp).1) (fun p hp => (hsound p hp).2.2) hnodup
    rw [List.length_append, hq]
    simp only [List.length_cons]
    omega

theorem bfs_terminal (conns : List Connection) (all_pins : List Pin) (start : Pin)
    (s : BfsState) (hinv : BfsInv conns all_pins start s) (hq : s.queue = []) :
    ∀ q, q ∈ s.acc ↔ (q ∈ all_pins ∧ pinReach conns all_pins start q) := by
  have hclosed : ∀ p ∈ s.acc, ∀ r ∈ all_pins, pinAdj conns p r → r ∈ s.acc := by
    intro p hp
    rcases hinv.frontier p hp with hpq | h
    · rw [hq] at hpq
      exact absurd hpq (List.not_mem_nil p)
    · exact h
  have hmem : ∀ r, Relation.ReflTransGen (pinStep conns all_pins) start r →
      r ∈ s.acc := by
    intro r hr
    induction hr with
    | refl => exact hinv.startIn
    | tail hab hbc ih => exact hclosed _ ih _ hbc.2.2 hbc.1
  intro q
  constructor
  · intro h
    exact ⟨hinv.accSub q h, hinv.sound q h⟩
  · rintro ⟨hqall, hreach⟩
    exact hmem q hreach

theorem bfsLoop_spec (conns : List Connection) (all_pins : List Pin) (start : Pin)
    (hnd : (all_pins.map Pin.pin_id).Nodup) :
    ∀ (fuel : ℕ) (s : BfsState), BfsInv conns all_pins start s →
      s.queue.length + unprocessedCount all_pins s.processed ≤ fuel →
      ∀ q, q ∈ bfsLoop conns all_pins fuel s ↔
        (q ∈ all_pins ∧ pinReach conns all_pins start q) := by
  intro fuel
  induction fuel with
  | zero =>
    intro s hinv hle q
    have hq : s.queue = [] := by
      have hlen : s.queue.length = 0 := by omega
      exact List.length_eq_zero.mp hlen
    exact bfs_terminal conns all_pins start s hinv hq q
  | succ n ih =>
    intro s hinv hle q
    cases hq : s.queue with
    | nil =>
      have hend : bfsLoop conns all_pins (n + 1) s = s.acc := by
        show (match s.queue with
          | [] => s.acc
          | cur :: rest =>
            bfsLoop conns all_pins n
              (visitConns cur conns all_pins ⟨s.acc, s.processed, rest⟩)) = s.acc
        rw [hq]
      rw [hend]
      exact bfs_terminal conns all_pins start s hinv hq q
    | cons cur rest =>
      obtain ⟨hinv', hmeas⟩ := bfs_step conns all_pins start hnd s cur rest hq hinv
      have hstep : bfsLoop conns all_pins (n + 1) s
          = bfsLoop conns all_pins n
              (visitConns cur conns all_pins ⟨s.acc, s.processed, rest⟩) := by
        show (match s.queue with
          | [] => s.acc
          | cur :: rest =>
            bfsLoop conns all_pins n
              (visitConns cur conns all_pins ⟨s.acc, s.processed, rest⟩)) = _
        rw [hq]
      rw [hstep]
      refine ih _ hinv' ?_ q
      omega

theorem findConnectedPins_spec (conns : List Connection) (all_pins : List Pin)
    (start : Pin) (hnd : (all_pins.map Pin.pin_id).Nodup)
    (hstart : start ∈ all_pins) :
    ∀ q, q ∈ findConnectedPins conns all_pins start ↔
      (q ∈ all_pins ∧ pinReach conns all_pins start q) := by
  have hinv : BfsInv conns all_pins start ⟨[start], [start.pin_id], [start]⟩ := by
    refine ⟨rfl, List.nodup_singleton _, ?_, ?_, ?_, ?_, ?_⟩
    · intro p hp
      rw [List.mem_singleton] at hp
      subst hp
      exact hstart
    · intro p hp
      exact hp
    · intro p hp
      exact Or.inl hp
    · intro p hp
      rw [List.mem_singleton] at hp
      subst hp
      exact Relation.ReflTransGen.refl
    · exact List.mem_singleton_self start
  have hfuel : (⟨[start], [start.pin_id], [start]⟩ : BfsState).queue.length
      + unprocessedCount all_pins
          (⟨[start], [start.pin_id], [start]⟩ : BfsState).processed
      ≤ all_pins.length + 1 := by
    have h1 : unprocessedCount all_pins [start.pin_id]
        ≤ (all_pins.map Pin.pin_id).toFinset.card :=
      Finset.card_le_card Finset.sdiff_subset
    have h2 : (all_pins.map Pin.pin_id).toFinset.card ≤ all_pins.length := by
      calc (all_pins.map Pin.pin_id).toFinset.card
          ≤ (all_pins.map Pin.pin_id).length := List.toFinset_card_le _
        _ = all_pins.length := List.length_map _ _
    show ([start] : List Pin).length + unprocessedCount all_pins [start.pin_id]
        ≤ all_pins.length + 1
    simp only [List.length_singleton]
    omega
  intro q
  exact bfsLoop_spec conns all_pins start hnd (all_pins.length + 1) _ hinv hfuel q

theorem groupsLoop_spec (conns : List Connection) (pins : List Pin)
    (hnd : (pins.map Pin.pin_id).Nodup) :
    ∀ (rem : List Pin) (processed : List String),
      (∀ p ∈ rem, p ∈ pins) →
      (∀ q ∈ pins, q.pin_id ∈ processed →
        ∀ r ∈ pins, pinReach conns pins q r → r.pin_id ∈ processed) →
      (∀ g ∈ groupsLoop conns pins rem processed,
        (∃ st ∈ pins, ∀ q, q ∈ g ↔ (q ∈ pins ∧ pinReach conns pins st q)) ∧
        ∀ x ∈ g, x.pin_id ∉ processed) ∧
      (∀ p ∈ rem, p.pin_id ∉ processed →
        ∃ g ∈ groupsLoop conns pins rem processed, p ∈ g) ∧
      List.Pairwise (fun g₁ g₂ => ∀ x, x ∈ g₁ → x ∉ g₂)
        (groupsLoop conns pins rem processed) := by
  intro rem
  induction rem with
  | nil =>
    intro processed _ _
    refine ⟨?_, ?_, List.Pairwise.nil⟩
    · intro g hg
      exact absurd hg (List.not_mem_nil g)
    · intro p hp
      exact absurd hp (List.not_mem_nil p)
  | cons p rest ih =>
    intro processed hrem hcl
    by_cases hmem : p.pin_id ∈ processed
    · have hstep : groupsLoop conns pins (p :: rest) processed
          = groupsLoop conns pins rest processed := by
        simp only [groupsLoop, if_pos hmem]
      rw [hstep]
      obtain ⟨h1, h2, h3⟩ :=
        ih processed (fun q hq => hrem q (List.mem_cons_of_mem p hq)) hcl
      refine ⟨h1, ?_, h3⟩
      intro q hq hqp
      rcases List.mem_cons.mp hq with rfl | hq
      · exact absurd hmem hqp
      · exact h2 q hq hqp
    · have hpin : p ∈ pins := hrem p (List.mem_cons_self p rest)
      have hchar := findConnectedPins_spec conns pins p hnd hpin
      have hpg : p ∈ findConnectedPins conns pins p :=
        (hchar p).mpr ⟨hpin, Relation.ReflTransGen.refl⟩
      have hne : ¬ (findConnectedPins conns pins p).isEmpty = true := by
        intro h
        rw [List.isEmpty_iff] at h
        rw [h] at hpg
        exact absurd hpg (List.not_mem_nil p)
      have hstep : groupsLoop conns pins (p :: rest) processed
          = findConnectedPins conns pins p
            :: groupsLoop conns pins rest
                (processed ++ (findConnectedPins conns pins p).map Pin.pin_id) := by
        simp only [groupsLoop, if_neg hmem, if_neg hne]
      rw [hstep]
      have hcl' : ∀ q ∈ pins,
          q.pin_id ∈ processed ++ (findConnectedPins conns pins p).map Pin.pin_id →
          ∀ r ∈ pins, pinReach conns pins q r →
          r.pin_id ∈ processed ++ (findConnectedPins conns pins p).map Pin.pin_id := by
        intro q hq hqp r hr hreach
        rcases List.mem_append.mp hqp with h | h
        · exact List.mem_append_left _ (hcl q hq h r hr hreach)
        · rcases List.mem_map.mp h with ⟨δ, hδ, hδid⟩
          have hδpins := ((hchar δ).mp hδ).1
          have hδq : δ = q := pin_eq_of_id_eq hnd hδpins hq hδid
          have hpq : pinReach conns pins p q := hδq ▸ ((hchar δ).mp hδ).2
          exact List.mem_append_right _
            (List.mem_map_of_mem Pin.pin_id
              ((hchar r).mpr ⟨hr, pinReach_trans hpq hreach⟩))
      obtain ⟨h1, h2, h3⟩ :=
        ih (processed ++ (findConnectedPins conns pins p).map Pin.pin_id)
          (fun q hq => hrem q (List.mem_cons_of_mem p hq)) hcl'
      have hg_not : ∀ x ∈ findConnectedPins conns pins p, x.pin_id ∉ processed := by
        intro x hx hxp
        have hpx := (hchar x).mp hx
        exact hmem (hcl x hpx.1 hxp p hpin (pinReach_symm hpx.2))
      refine ⟨?_, ?_, ?_⟩
      · intro g hg
        rcases List.mem_cons.mp hg with rfl | hg
        · exact ⟨⟨p, hpin, hchar⟩, hg_not⟩
        · obtain ⟨hcls, hnp⟩ := h1 g hg
          exact ⟨hcls, fun x hx hxp => hnp x hx (List.mem_append_left _ hxp)⟩
      · intro q hq hqp
        rcases List.mem_cons.mp hq with rfl | hq
        · exact ⟨_, List.mem_cons_self _ _, hpg⟩
        · by_cases hq' : q.pin_id
              ∈ processed ++ (findConnectedPins conns pins p).map Pin.pin_id
          · rcases List.mem_append.mp hq' with h | h
            · exact absurd h hqp
            · rcases List.mem_map.mp h with ⟨δ, hδ, hδid⟩
              have hδq : δ = q := pin_eq_of_id_eq hnd ((hchar δ).mp hδ).1
                (hrem q (List.mem_cons_of_mem p hq)) hδid
              exact ⟨_, List.mem_cons_self _ _, hδq ▸ hδ⟩
          · obtain ⟨g, hg, hqg⟩ := h2 q hq hq'
            exact ⟨g, List.mem_cons_of_mem _ hg, hqg⟩
      · refine List.Pairwise.cons ?_ h3
        intro g' hg' x hx hxg'
        obtain ⟨-, hnp⟩ := h1 g' hg'
        exact hnp x hxg'
          (List.mem_append_right _ (List.mem_map_of_mem Pin.pin_id hx))

/-- C1: for every connection list and every pin list with distinct pin ids,
the node-identification groups partition the pin set — every group is made of
pins of the list, every pin lies in some group, and distinct groups are
disjoint (so every pin belongs to exactly one electrical node; the node list
has exactly one `Node` per group) — and the induced share-a-node relation is
an equivalence on the pins: reflexive, symmetric and, in particular,
transitive. -/
theorem c1_nodes_partition_pins (conns : List Connection) (pins : List Pin)
    (hnd : (pins.map Pin.pin_id).Nodup) :
    (∀ g ∈ identifyGroups conns pins, ∀ p ∈ g, p ∈ pins) ∧
    (∀ p ∈ pins, ∃ g ∈ identifyGroups conns pins, p ∈ g) ∧
    List.Pairwise (fun g₁ g₂ => ∀ x, x ∈ g₁ → x ∉ g₂)
      (identifyGroups conns pins) ∧
    (identifyElectricalNodes conns pins).length
      = (identifyGroups conns pins).length ∧
    (∀ p ∈ pins, sharesNode conns pins p p) ∧
    (∀ p q : Pin, sharesNode conns pins p q → sharesNode conns pins q p) ∧
    (∀ p q r : Pin, sharesNode conns pins p q → sharesNode conns pins q r →
      sharesNode conns pins p r) := by
  obtain ⟨h1, h2, h3⟩ := groupsLoop_spec conns pins hnd pins []
    (fun p hp => hp) (fun q _ h => absurd h (List.not_mem_nil _))
  refine ⟨?_, ?_, h3, ?_, ?_, ?_, ?_⟩
  · intro g hg p hp
    obtain ⟨⟨st, hst, hchar⟩, -⟩ := h1 g hg
    exact ((hchar p).mp hp).1
  · intro p hp
    exact h2 p hp (List.not_mem_nil _)
  · simp [identifyElectricalNodes]
  · intro p hp
    obtain ⟨g, hg, hpg⟩ := h2 p hp (List.not_mem_nil _)
    exact ⟨g, hg, hpg, hpg⟩
  · intro p q h
    obtain ⟨g, hg, hpg, hqg⟩ := h
    exact ⟨g, hg, hqg, hpg⟩
  · intro p q r hpq hqr
    obtain ⟨g₁, hg₁, hpg₁, hqg₁⟩ := hpq
    obtain ⟨g₂, hg₂, hqg₂, hrg₂⟩ := hqr
    obtain ⟨⟨s₁, hs₁, hchar₁⟩, -⟩ := h1 g₁ hg₁
    obtain ⟨⟨s₂, hs₂, hchar₂⟩, -⟩ := h1 g₂ hg₂
    have hq1 := ((hchar₁ q).mp hqg₁).2
    have hq2 := ((hchar₂ q).mp hqg₂).2
    have hr2 := ((hchar₂ r).mp hrg₂).2
    have hs₁r : pinReach conns pins s₁ r :=
      pinReach_trans hq1 (pinReach_trans (pinReach_symm hq2) hr2)
    exact ⟨g₁, hg₁, hpg₁, (hchar₁ r).mpr ⟨((hchar₂ r).mp hrg₂).1, hs₁r⟩⟩

theorem c1_nodes_partition_pins_witness :
    ((scenarioPins.map Pin.pin_id).Nodup) ∧
    ((∀ g ∈ identifyGroups scenarioConnections scenarioPins,
        ∀ p ∈ g, p ∈ scenarioPins) ∧
     (∀ p ∈ scenarioPins,
        ∃ g ∈ identifyGroups scenarioConnections scenarioPins, p ∈ g) ∧
     List.Pairwise (fun g₁ g₂ => ∀ x, x ∈ g₁ → x ∉ g₂)
       (identifyGroups scenarioConnections scenarioPins) ∧
     (identifyElectricalNodes scenarioConnections scenarioPins).length
       = (identifyGroups scenarioConnections scenarioPins).length ∧
     (∀ p ∈ scenarioPins, sharesNode scenarioConnections scenarioPins p p) ∧
     (∀ p q : Pin, sharesNode scenarioConnections scenarioPins p q →
       sharesNode scenarioConnections scenarioPins q p) ∧
     (∀ p q r : Pin, sharesNode scenarioConnections scenarioPins p q →
       sharesNode scenarioConnections scenarioPins q r →
       sharesNode scenarioConnections scenarioPins p r)) :=
  ⟨by rw [scenarioPins_eval]; decide,
   c1_nodes_partition_pins scenarioConnections scenarioPins
     (by rw [scenarioPins_eval]; decide)⟩

end HardwareAI
